import Mathlib

/-!
Verification of the analytical core of the cryptoLoader repository
(src/indicators/indicators.py and src/helpers/plots.py).

Numeric values are modelled as exact rationals (ℚ); NumPy/pandas NaN
("missing") is modelled as `Option.none`.  Standard deviations, which the
source computes with a real square root, live in ℝ.  Python slices
`a[p:q]` (with 0 ≤ p ≤ q) are modelled by `pySlice`.
-/

/-- Python slice `l[a:b]` for `0 ≤ a ≤ b`. -/
def pySlice {α : Type} (l : List α) (a b : ℕ) : List α :=
  (l.drop a).take (b - a)

/-- Model of `np.mean` over a list of rationals (population mean).
The source never applies it to an empty list except where noted. -/
def npMean (l : List ℚ) : ℚ := l.sum / l.length

/-- Population variance, the quantity under the square root of `np.std`. -/
def varianceQ (l : List ℚ) : ℚ := (l.map (fun x => (x - npMean l) ^ 2)).sum / l.length

/-- Model of `np.std` (population standard deviation, ddof = 0). -/
noncomputable def npStd (l : List ℚ) : ℝ := Real.sqrt ((varianceQ l : ℚ) : ℝ)

/-- Model of `np.std` applied to a possibly-empty slice: NumPy yields NaN on an empty
input, modelled as `none`. -/
noncomputable def stdOpt (l : List ℚ) : Option ℝ :=
  if l = [] then none else some (npStd l)

/-! ### Forward-Return Calculator (`_calc_fwd_returns`, indicators.py:146-164)

The source allocates a `maxperiod × n` matrix of NaN and, for each
`period` in `1..maxperiod`, fills row `period-1` at columns
`i ∈ range(n - period)` with `prices[i+period]/prices[i] - 1`. -/

/-- Row `p` (0-based) of the result is the horizon `p+1` forward-return
column: entry `i` is filled exactly when `i + (p+1) < n`. -/
def _calc_fwd_returns (prices : List ℚ) (maxperiod : ℕ) : List (List (Option ℚ)) :=
  (List.range maxperiod).map (fun p =>
    (List.range prices.length).map (fun i =>
      if i + (p + 1) < prices.length then
        some (prices.getD (i + (p + 1)) 0 / prices.getD i 0 - 1)
      else none))

/-! ### Shift-based forward-return construction (plots.py:22)

`signaldf['c'].pct_change(i).shift(-i)` on a clean (NaN-free) price column. -/

/-- Model of `Series.pct_change(periods)`: entry `t` is `v[t]/v[t-periods] - 1` for
`t ≥ periods`, NaN before that. -/
def pct_change (values : List ℚ) (periods : ℕ) : List (Option ℚ) :=
  (List.range values.length).map (fun t =>
    if periods ≤ t then some (values.getD t 0 / values.getD (t - periods) 0 - 1)
    else none)

/-- Model of `Series.shift(-periods)`: entry `t` takes the value at `t + periods`,
with NaN filled in at the tail. -/
def shiftBack {α : Type} (l : List (Option α)) (periods : ℕ) : List (Option α) :=
  (List.range l.length).map (fun t =>
    if t + periods < l.length then l.getD (t + periods) none else none)

/-- The forward-return column the plotting helpers build for horizon `h`. -/
def fwdReturnsCol (c : List ℚ) (h : ℕ) : List (Option ℚ) :=
  shiftBack (pct_change c h) h

/-! ### Basic lemmas about the two constructions -/

theorem getD_range_map {α : Type} (f : ℕ → α) (n i : ℕ) (d : α) (h : i < n) :
    ((List.range n).map f).getD i d = f i := by
  have hlt : i < ((List.range n).map f).length := by simpa using h
  rw [List.getD_eq_getElem _ _ hlt, List.getElem_map, List.getElem_range]

theorem calc_fwd_returns_length (prices : List ℚ) (H : ℕ) :
    (_calc_fwd_returns prices H).length = H := by
  simp [_calc_fwd_returns]

theorem calc_fwd_returns_entry (prices : List ℚ) (H h t : ℕ)
    (h1 : 1 ≤ h) (h2 : h ≤ H) (ht : t < prices.length) :
    ((_calc_fwd_returns prices H).getD (h - 1) []).getD t none =
      (if t + h < prices.length then
        some (prices.getD (t + h) 0 / prices.getD t 0 - 1) else none) := by
  have hrow : h - 1 < H := by omega
  rw [_calc_fwd_returns, getD_range_map _ _ _ _ hrow, getD_range_map _ _ _ _ ht]
  have : h - 1 + 1 = h := by omega
  rw [this]

theorem fwdReturnsCol_entry (c : List ℚ) (h t : ℕ) (ht : t < c.length) :
    (fwdReturnsCol c h).getD t none =
      (if t + h < c.length then some (c.getD (t + h) 0 / c.getD t 0 - 1) else none) := by
  have hpc : (pct_change c h).length = c.length := by simp [pct_change]
  rw [fwdReturnsCol, shiftBack, hpc, getD_range_map _ _ _ _ ht]
  by_cases hcase : t + h < c.length
  · rw [if_pos hcase, pct_change, getD_range_map _ _ _ _ hcase]
    have hh : h ≤ t + h := by omega
    rw [if_pos hh]
    have : t + h - h = t := by omega
    rw [this, if_pos hcase]
  · rw [if_neg hcase, if_neg hcase]

theorem fwdReturnsCol_length (c : List ℚ) (h : ℕ) :
    (fwdReturnsCol c h).length = c.length := by
  simp [fwdReturnsCol, shiftBack, pct_change]

/-- C1: For every price array of length n and every maxHorizon ≥ 1, the
forward-return matrix has maxHorizon rows; for every horizon h in
1..maxHorizon and index t, entry (h,t) equals prices[t+h]/prices[t] − 1 when
t+h < n and is missing otherwise; and on prices = [100, 110, 121] with
maxHorizon = 2 the entries are 0.10, 0.21, 0.10 with (1,2), (2,1), (2,2)
missing. -/
theorem C1_forward_return_matrix (prices : List ℚ) (H : ℕ) (hH : 1 ≤ H) :
    (_calc_fwd_returns prices H).length = H ∧
    (∀ h t, 1 ≤ h → h ≤ H → t < prices.length →
      ((_calc_fwd_returns prices H).getD (h - 1) []).getD t none =
        (if t + h < prices.length then
          some (prices.getD (t + h) 0 / prices.getD t 0 - 1) else none)) ∧
    ((_calc_fwd_returns [100, 110, 121] 2).getD 0 []).getD 0 none = some (1/10) ∧
    ((_calc_fwd_returns [100, 110, 121] 2).getD 1 []).getD 0 none = some (21/100) ∧
    ((_calc_fwd_returns [100, 110, 121] 2).getD 0 []).getD 1 none = some (1/10) ∧
    ((_calc_fwd_returns [100, 110, 121] 2).getD 0 []).getD 2 none = none ∧
    ((_calc_fwd_returns [100, 110, 121] 2).getD 1 []).getD 1 none = none ∧
    ((_calc_fwd_returns [100, 110, 121] 2).getD 1 []).getD 2 none = none := by
  refine ⟨calc_fwd_returns_length prices H,
    fun h t h1 h2 ht => calc_fwd_returns_entry prices H h t h1 h2 ht, ?_, ?_, ?_, ?_, ?_, ?_⟩
  all_goals norm_num [_calc_fwd_returns, List.range_succ]

/-- Witness for C1 at concrete input prices = [100, 110, 121], H = 2,
h = 2, t = 0. -/
theorem C1_forward_return_matrix_witness :
    ((_calc_fwd_returns [100, 110, 121] 2).getD (2 - 1) []).getD 0 none =
      (if 0 + 2 < ([100, 110, 121] : List ℚ).length then
        some (([100, 110, 121] : List ℚ).getD (0 + 2) 0 /
          ([100, 110, 121] : List ℚ).getD 0 0 - 1) else none) :=
  (C1_forward_return_matrix [100, 110, 121] 2 (by norm_num)).2.1 2 0
    (by norm_num) (by norm_num) (by norm_num)

/-! ### Indicator Library: EWMA and momentum (indicators.py:7-95) -/

/-- The weight vector `np.array([(1 - alpha) * (alpha ** i) for i in range(length)])[::-1]`. -/
def ewmaWeights (length : ℕ) (alpha : ℚ) : List ℚ :=
  ((List.range length).map (fun i => (1 - alpha) * alpha ^ i)).reverse

/-- Model of `exponentially_weighted_moving_average(values, length, alpha)`: NaN for
`i < length`, else `np.dot(values[i-length:i], weights) / weights.sum()`. -/
def exponentially_weighted_moving_average (values : List ℚ) (length : ℕ) (alpha : ℚ) :
    List (Option ℚ) :=
  (List.range values.length).map (fun i =>
    if i < length then none
    else some
      ((List.zipWith (· * ·) (pySlice values (i - length) i) (ewmaWeights length alpha)).sum /
        (ewmaWeights length alpha).sum))

/-- Model of `momentum(prices, lookback)`: `prices[i]/prices[i-lookback] - 1` for
`i ≥ lookback`, NaN before. -/
def momentum (prices : List ℚ) (lookback : ℕ) : List (Option ℚ) :=
  (List.range prices.length).map (fun i =>
    if lookback ≤ i then some (prices.getD i 0 / prices.getD (i - lookback) 0 - 1)
    else none)

/-- Model of `momentum2(prices, lookback)`: tolerates a leading run of NaN prices;
`start_idx` is the first non-NaN index (0 if none exists), computation starts
at `start_idx + lookback`, NaN-propagating arithmetic elsewhere. -/
def momentum2 (prices : List (Option ℚ)) (lookback : ℕ) : List (Option ℚ) :=
  let start_idx := match prices.findIdx? (fun p => p.isSome) with
    | some j => j
    | none => 0
  (List.range prices.length).map (fun i =>
    if start_idx + lookback ≤ i then
      match prices.getD i none, prices.getD (i - lookback) none with
      | some a, some b => some (a / b - 1)
      | _, _ => none
    else none)

/-! ### Sum and slice lemmas -/

theorem range_map_sum (f : ℕ → ℚ) (n : ℕ) :
    ((List.range n).map f).sum = ∑ k ∈ Finset.range n, f k := by
  induction n with
  | zero => simp
  | succ m ih =>
      rw [List.range_succ, List.map_append, List.sum_append, Finset.sum_range_succ, ih]
      simp

theorem pySlice_eq_range_map (l : List ℚ) (a w : ℕ) (h : a + w ≤ l.length) :
    pySlice l a (a + w) = (List.range w).map (fun j => l.getD (a + j) 0) := by
  apply List.ext_getElem
  · simp only [pySlice, List.length_take, List.length_drop, List.length_map, List.length_range]
    omega
  · intro n h1 h2
    simp only [pySlice] at h1
    simp only [pySlice, List.getElem_take, List.getElem_drop, List.getElem_map,
      List.getElem_range]
    rw [List.getD_eq_getElem _ _ (by simp at h1; omega)]

theorem range_map_snoc {α : Type} (f : ℕ → α) (m : ℕ) :
    (List.range (m + 1)).map f = (List.range m).map f ++ [f m] := by
  rw [List.range_succ, List.map_append]
  simp

theorem zipWith_range_map {α : Type} (f : ℚ → ℚ → α) (g1 g2 : ℕ → ℚ) (n : ℕ) :
    List.zipWith f ((List.range n).map g1) ((List.range n).map g2) =
      (List.range n).map (fun k => f (g1 k) (g2 k)) := by
  apply List.ext_getElem
  · simp
  · intro m h1 h2
    simp [List.getElem_zipWith]

theorem ewmaWeights_eq (L : ℕ) (alpha : ℚ) :
    ewmaWeights L alpha = (List.range L).map (fun k => (1 - alpha) * alpha ^ (L - 1 - k)) := by
  apply List.ext_getElem
  · simp [ewmaWeights]
  · intro n h1 h2
    simp only [ewmaWeights, List.getElem_reverse, List.getElem_map, List.getElem_range,
      List.length_map, List.length_range]

theorem ewmaWeights_sum (L : ℕ) (alpha : ℚ) :
    (ewmaWeights L alpha).sum = ∑ k ∈ Finset.range L, (1 - alpha) * alpha ^ k := by
  rw [ewmaWeights, List.sum_reverse, range_map_sum]

/-- C4: EWMA is missing at every index i < length, and at every i ≥ length
equals the dot product of the trailing window values[i-length : i]
(excluding values[i] itself) with the reversed weight vector
w_k = (1-alpha)·alpha^k, divided by the weight sum; the most recent window
element (index i-1, term k = length-1) receives weight w_0. -/
theorem C4_ewma_truncated (values : List ℚ) (L : ℕ) (alpha : ℚ)
    (hL : 1 ≤ L) (ha0 : 0 < alpha) (ha1 : alpha < 1) :
    ∀ i, i < values.length →
      (i < L → (exponentially_weighted_moving_average values L alpha).getD i none = none) ∧
      (L ≤ i → (exponentially_weighted_moving_average values L alpha).getD i none =
        some ((∑ k ∈ Finset.range L,
            values.getD (i - L + k) 0 * ((1 - alpha) * alpha ^ (L - 1 - k))) /
          ∑ k ∈ Finset.range L, (1 - alpha) * alpha ^ k)) := by
  intro i hi
  constructor
  · intro hiL
    rw [exponentially_weighted_moving_average, getD_range_map _ _ _ _ hi, if_pos hiL]
  · intro hLi
    rw [exponentially_weighted_moving_average, getD_range_map _ _ _ _ hi,
      if_neg (by omega)]
    have hslice : pySlice values (i - L) i =
        (List.range L).map (fun j => values.getD (i - L + j) 0) := by
      have h2 : i - L + L = i := by omega
      have := pySlice_eq_range_map values (i - L) L (by omega)
      rwa [h2] at this
    rw [hslice, ewmaWeights_sum, ewmaWeights_eq, zipWith_range_map, range_map_sum]

/-- Witness for C4 at values = [1, 2, 3], length = 2, alpha = 1/2, i = 2:
window [1, 2], reversed weights [1/4, 1/2], dot = 5/4, weight sum = 3/4. -/
theorem C4_ewma_truncated_witness :
    (exponentially_weighted_moving_average [1, 2, 3] 2 (1/2)).getD 2 none = some (5/3) := by
  have h := ((C4_ewma_truncated [1, 2, 3] 2 (1/2) (by norm_num) (by norm_num)
    (by norm_num)) 2 (by norm_num)).2 (by norm_num)
  rw [h]
  norm_num [Finset.sum_range_succ]

/-! ### Rolling standard deviation and z-scores (indicators.py:97-143)

`rolling_zscore` computes, for each `i ≥ rollingWindow - 1`, the mean and
standard deviation of `values[i-rollingWindow+1 : i+1]` and the guarded
quotient `(values[i] - mean) / std if std != 0 else 0`.  The Python index
`i - rollingWindow + 1` is written `i + 1 - rollingWindow` below so that
truncated ℕ subtraction agrees with the Python arithmetic for
`i ≥ rollingWindow - 1` and `rollingWindow ≥ 1` (the only invocations:
`zscore` routes `rollingWindow == 0` to the full-population branch). -/

/-- The body of the `rolling_zscore` loop:
`(v - mean) / std if std != 0 else 0`. -/
noncomputable def zscoreVal (w : List ℚ) (v : ℚ) : ℝ :=
  if npStd w = 0 then 0 else ((v : ℝ) - (npMean w : ℝ)) / npStd w

noncomputable def rolling_zscore (values : List ℚ) (rollingWindow : ℕ) : List (Option ℝ) :=
  (List.range values.length).map (fun i =>
    if rollingWindow - 1 ≤ i then
      some (zscoreVal (pySlice values (i + 1 - rollingWindow) (i + 1)) (values.getD i 0))
    else none)

/-- Model of `zscore(values, rollingWindow)`: `rollingWindow == 0` uses a single
full-population mean and std with an UNGUARDED float division
`(values - np.mean(values)) / np.std(values)`; when `np.std` is zero that
IEEE division produces NaN or ±Inf, modelled as `none`.  Any other window
delegates to `rolling_zscore`. -/
noncomputable def zscore (values : List ℚ) (rollingWindow : ℕ) : List (Option ℝ) :=
  if rollingWindow = 0 then
    values.map (fun v : ℚ =>
      if npStd values = 0 then none
      else some (((v : ℝ) - (npMean values : ℝ)) / npStd values))
  else rolling_zscore values rollingWindow

/-- Model of `rolling_std(arr, window)`: for `i ≥ window - 1` the `np.std` of
`arr[i-window+1 : i]` — the current point `i` is excluded, so the slice has
`window - 1` elements (and is empty for `window == 1`, where NumPy yields
NaN). -/
noncomputable def rolling_std (arr : List ℚ) (window : ℕ) : List (Option ℝ) :=
  (List.range arr.length).map (fun i =>
    if window - 1 ≤ i then stdOpt (pySlice arr (i + 1 - window) i) else none)

/-- C5: at every index i ≥ W−1, RollingStd[i] is the standard deviation of
the W−1 points values[i−W+1 .. i−1] (current point excluded) while
RollingZScore[i] uses mean and standard deviation of the W points
values[i−W+1 .. i] (current point included); the zscore window equals the
std window with exactly the current element appended; both are missing at
every index below W−1. -/
theorem C5_window_boundary (values : List ℚ) (W : ℕ) (hW : 1 ≤ W) :
    (∀ i, W - 1 ≤ i → i < values.length →
      (rolling_std values W).getD i none =
        stdOpt ((List.range (W - 1)).map (fun k => values.getD (i + 1 - W + k) 0)) ∧
      (rolling_zscore values W).getD i none =
        some (zscoreVal ((List.range W).map (fun k => values.getD (i + 1 - W + k) 0))
          (values.getD i 0)) ∧
      (List.range W).map (fun k => values.getD (i + 1 - W + k) 0) =
        ((List.range (W - 1)).map (fun k => values.getD (i + 1 - W + k) 0)) ++
          [values.getD i 0]) ∧
    (∀ j, j < W - 1 →
      (rolling_std values W).getD j none = none ∧
      (rolling_zscore values W).getD j none = none) := by
  obtain ⟨m, rfl⟩ : ∃ m, W = m + 1 := ⟨W - 1, by omega⟩
  simp only [Nat.add_sub_cancel]
  constructor
  · intro i hmi hi
    have hstd_slice : pySlice values (i + 1 - (m + 1)) i =
        (List.range m).map (fun k => values.getD (i + 1 - (m + 1) + k) 0) := by
      have hq := pySlice_eq_range_map values (i + 1 - (m + 1)) m (by omega)
      have h2 : i + 1 - (m + 1) + m = i := by omega
      rwa [h2] at hq
    have hz_slice : pySlice values (i + 1 - (m + 1)) (i + 1) =
        (List.range (m + 1)).map (fun k => values.getD (i + 1 - (m + 1) + k) 0) := by
      have hq := pySlice_eq_range_map values (i + 1 - (m + 1)) (m + 1) (by omega)
      have h2 : i + 1 - (m + 1) + (m + 1) = i + 1 := by omega
      rwa [h2] at hq
    refine ⟨?_, ?_, ?_⟩
    · rw [rolling_std, getD_range_map _ _ _ _ hi,
        if_pos (show m + 1 - 1 ≤ i by omega), hstd_slice]
    · rw [rolling_zscore, getD_range_map _ _ _ _ hi,
        if_pos (show m + 1 - 1 ≤ i by omega), hz_slice]
    · rw [range_map_snoc]
      have h3 : i + 1 - (m + 1) + m = i := by omega
      simp only [h3]
  · intro j hj
    constructor
    · by_cases hjn : j < values.length
      · rw [rolling_std, getD_range_map _ _ _ _ hjn,
          if_neg (show ¬ m + 1 - 1 ≤ j by omega)]
      · rw [rolling_std]
        exact List.getD_eq_default _ _ (by simpa using hjn)
    · by_cases hjn : j < values.length
      · rw [rolling_zscore, getD_range_map _ _ _ _ hjn,
          if_neg (show ¬ m + 1 - 1 ≤ j by omega)]
      · rw [rolling_zscore]
        exact List.getD_eq_default _ _ (by simpa using hjn)

/-- Witness for C5 at values = [1, 2, 3, 4, 5], W = 3: RollingStd[2] uses
[1, 2] only (std = 1/2) while RollingZScore[2] uses [1, 2, 3]; index 1 is
missing for both. -/
theorem C5_window_boundary_witness :
    (rolling_std [1, 2, 3, 4, 5] 3).getD 2 none = some ((1/2 : ℝ)) ∧
    (rolling_zscore [1, 2, 3, 4, 5] 3).getD 2 none = some (zscoreVal [1, 2, 3] 3) ∧
    (rolling_std [1, 2, 3, 4, 5] 3).getD 1 none = none ∧
    (rolling_zscore [1, 2, 3, 4, 5] 3).getD 1 none = none := by
  have h := C5_window_boundary [1, 2, 3, 4, 5] 3 (by norm_num)
  have h1 := h.1 2 (by norm_num) (by norm_num)
  have h2 := h.2 1 (by norm_num)
  refine ⟨?_, ?_, h2.1, h2.2⟩
  · rw [h1.1]
    have hw : (List.range (3 - 1)).map
        (fun k => ([1, 2, 3, 4, 5] : List ℚ).getD (2 + 1 - 3 + k) 0) = [1, 2] := by
      norm_num [List.range_succ]
    rw [hw, stdOpt, if_neg (by simp)]
    have hv : varianceQ [1, 2] = 1/4 := by
      norm_num [varianceQ, npMean]
    rw [npStd, hv]
    rw [show (((1/4 : ℚ) : ℝ)) = (1/2 : ℝ) ^ 2 by norm_num]
    rw [Real.sqrt_sq (by norm_num)]
  · rw [h1.2.1]
    have hw : (List.range 3).map
        (fun k => ([1, 2, 3, 4, 5] : List ℚ).getD (2 + 1 - 3 + k) 0) = [1, 2, 3] := by
      norm_num [List.range_succ]
    rw [hw]
    norm_num

/-! ### Rolling Decile Ranker (indicators.py:36-62)

`compute_deciles_with_rank` builds `sliding_window_view(values, window_size)`
(which raises a ValueError when the window exceeds the array length or is
not positive — modelled by returning `none`), computes
`np.percentile(window, np.arange(10, 100, 10))` per window (linear
interpolation over the sorted window), and assigns
`find_decile(values[i + window_size - 1], deciles)` to the window's last
position; positions before `window_size - 1` are NaN. -/

def sortQ (l : List ℚ) : List ℚ := l.mergeSort (fun a b => decide (a ≤ b))

/-- Linear interpolation at fractional position `pos` into a sorted array,
as `np.percentile` does after converting the percentile `q` to the position
`(m - 1) * q/100`. -/
def interpSorted (s : List ℚ) (pos : ℚ) : ℚ :=
  if (⌊pos⌋).toNat + 1 < s.length then
    s.getD (⌊pos⌋).toNat 0 +
      (pos - ((⌊pos⌋).toNat : ℚ)) * (s.getD ((⌊pos⌋).toNat + 1) 0 - s.getD (⌊pos⌋).toNat 0)
  else s.getD (⌊pos⌋).toNat 0

/-- Model of `np.percentile(l, q)` with the default linear interpolation. -/
def npPercentile (l : List ℚ) (q : ℚ) : ℚ :=
  interpSorted (sortQ l) ((((sortQ l).length : ℚ) - 1) * q / 100)

/-- Model of `np.percentile(w, np.arange(10, 100, 10))`: the nine decile breakpoints. -/
def decileBreakpoints (w : List ℚ) : List ℚ :=
  (List.range 9).map (fun j : ℕ => npPercentile w (10 * ((j : ℚ) + 1)))

/-- The loop of `find_decile`, carrying the running `enumerate` index. -/
def findDecileFrom (value : ℚ) : List ℚ → ℕ → ℕ
  | [], _ => 9
  | d :: rest, i => if value ≤ d then i else findDecileFrom value rest (i + 1)

/-- Model of `find_decile(value, deciles)`: first index whose breakpoint is ≥ value,
else 9. -/
def find_decile (value : ℚ) (deciles : List ℚ) : ℕ := findDecileFrom value deciles 0

def compute_deciles_with_rank (values : List ℚ) (window_size : ℕ) :
    Option (List (List ℚ) × List (Option ℕ)) :=
  if 1 ≤ window_size ∧ window_size ≤ values.length then
    some ((List.range (values.length - window_size + 1)).map
        (fun i => decileBreakpoints (pySlice values i (i + window_size))),
      (List.range values.length).map (fun t =>
        if window_size - 1 ≤ t then
          some (find_decile (values.getD t 0)
            (decileBreakpoints (pySlice values (t + 1 - window_size) (t + 1))))
        else none))
  else none

/-! ### Signal-Bucket Aggregator (`_bucketAndCalcSignalReturns`, plots.py:6-32)

The function mutates its argument dataframe: `dropna(subset=[signal_col],
inplace=True)` removes the missing-signal rows from the caller's frame, and
the `signaldf['fwdReturns%s'] = ...` / `signaldf['%s_normalized'] = ...`
assignments add columns to it.  The frame is modelled explicitly and the
function returns the post-call frame next to its group-by result. -/

/-- Model of `np.round` / `Series.round` tie behaviour: round half to even. -/
def roundHalfEven (x : ℚ) : ℤ :=
  if x - ⌊x⌋ < 1/2 then ⌊x⌋
  else if 1/2 < x - ⌊x⌋ then ⌊x⌋ + 1
  else if ⌊x⌋ % 2 = 0 then ⌊x⌋ else ⌊x⌋ + 1

/-- Model of `Series.round(digits)` on one value. -/
def roundTo (digits : ℕ) (x : ℚ) : ℚ :=
  (roundHalfEven (x * 10 ^ digits) : ℚ) / 10 ^ digits

/-- The row index produced by `groupby` (unique keys) followed by
`sort_index(ascending=False)`. -/
def sortedDescKeys (keys : List ℚ) : List ℚ :=
  keys.dedup.mergeSort (fun a b => decide (b ≤ a))

/-- Model of the `.mean()` of one group's column: NaN entries are skipped; a group whose
entries are all NaN yields NaN. -/
def groupMean (xs : List (Option ℚ)) : Option ℚ :=
  let vs := xs.filterMap id
  if vs = [] then none else some (vs.sum / vs.length)

/-- The dataframe: close prices, the signal column (with possible NaN), the
`fwdReturns1..fwdReturnsF` columns already present, and the
`_normalized` column when present. -/
structure Frame where
  c : List ℚ
  signal : List (Option ℚ)
  fwdCols : List (List (Option ℚ))
  normalized : Option (List (Option ℚ))

/-- Keep the rows whose mask bit is true (row-wise `dropna` filtering). -/
def maskFilter {α : Type} (mask : List Bool) (l : List α) : List α :=
  match mask, l with
  | true :: ms, x :: xs => x :: maskFilter ms xs
  | false :: ms, _ :: xs => maskFilter ms xs
  | _, _ => []

/-- Model of `df.dropna(subset=[signal_col], inplace=True)`: drop every row whose
signal entry is missing, across all columns. -/
def Frame.dropna (f : Frame) : Frame :=
  ⟨maskFilter (f.signal.map (fun s => s.isSome)) f.c,
    maskFilter (f.signal.map (fun s => s.isSome)) f.signal,
    f.fwdCols.map (maskFilter (f.signal.map (fun s => s.isSome))),
    (f.normalized).map (maskFilter (f.signal.map (fun s => s.isSome)))⟩

/-- Model of `_bucketAndCalcSignalReturns(signaldf, signal_col, signal_rounding,
maxperiod_fwdreturns)`: dropna in place, add the missing forward-return
columns via `pct_change(i).shift(-i)`, add the rounded-signal column, group
by it and take per-column means, sorting keys descending.  Returns the
caller's (mutated) frame together with the group-by table, whose rows are
(bucket key, [mean fwdReturns1, .., mean fwdReturnsH]). -/
def _bucketAndCalcSignalReturns (f : Frame) (signal_rounding maxperiod : ℕ) :
    Frame × List (ℚ × List (Option ℚ)) :=
  let f1 := f.dropna
  let fwd2 := (List.range (max f1.fwdCols.length maxperiod)).map
    (fun j => if j < f1.fwdCols.length then f1.fwdCols.getD j []
      else fwdReturnsCol f1.c (j + 1))
  let norm := f1.signal.map (Option.map (roundTo signal_rounding))
  let f2 : Frame := ⟨f1.c, f1.signal, fwd2, some norm⟩
  (f2, (sortedDescKeys (norm.filterMap id)).map (fun k =>
    (k, (List.range maxperiod).map (fun p =>
      groupMean (((List.range f1.signal.length).filter
        (fun t => norm.getD t none = some k)).map
          (fun t => (fwd2.getD p []).getD t none))))))

/-! ### Frame mutation lemmas -/

theorem maskFilter_zip {α : Type} :
    ∀ (sig : List (Option ℚ)) (l : List α),
      maskFilter (sig.map (fun s => s.isSome)) l =
        ((sig.zip l).filter (fun q => q.1.isSome)).map Prod.snd := by
  intro sig
  induction sig with
  | nil =>
      intro l
      cases l <;> simp [maskFilter]
  | cons s ss ih =>
      intro l
      cases l with
      | nil => simp [maskFilter]
      | cons x xs =>
          cases hs : s.isSome <;> simp [maskFilter, hs, ih]

theorem maskFilter_self (sig : List (Option ℚ)) :
    maskFilter (sig.map (fun s => s.isSome)) sig = sig.filter (fun s => s.isSome) := by
  induction sig with
  | nil => simp [maskFilter]
  | cons s ss ih =>
      cases hs : s.isSome <;> simp [maskFilter, hs, ih]

theorem getD_map_col {α β : Type} (g : α → β) (l : List α) (j : ℕ)
    (hj : j < l.length) (d : β) (d' : α) :
    (l.map g).getD j d = g (l.getD j d') := by
  rw [List.getD_eq_getElem _ _ (by simpa using hj), List.getElem_map,
    List.getD_eq_getElem _ _ hj]

/-- C9 counterexample: `_bucketAndCalcSignalReturns` does NOT leave its
input unchanged — on a frame whose signal has one missing entry, the
caller's frame after the call differs from the frame before it (the
missing-signal row has been dropped in place, among other mutations). -/
theorem C9_counterexample :
    (_bucketAndCalcSignalReturns
        ⟨[100, 110, 121], [some 1, none, some 2], [], none⟩ 1 2).1 ≠
      ⟨[100, 110, 121], [some 1, none, some 2], [], none⟩ := by
  intro h
  have hlen := congrArg (fun fr : Frame => fr.signal.length) h
  simp [_bucketAndCalcSignalReturns, Frame.dropna, maskFilter] at hlen

/-- C9 amended: the pure indicator kernels allocate fresh outputs, but
`_bucketAndCalcSignalReturns` mutates the caller's frame: after the call
the frame holds exactly the rows whose signal was present (prices, signal
and pre-existing forward-return columns all filtered in place), the
forward-return columns extended up to the requested horizon (newly computed
ones from the filtered prices), and a new rounded-signal column. -/
theorem C9_frame_mutation (f : Frame) (p H : ℕ) :
    (_bucketAndCalcSignalReturns f p H).1.c =
        ((f.signal.zip f.c).filter (fun q => q.1.isSome)).map Prod.snd ∧
    (_bucketAndCalcSignalReturns f p H).1.signal =
        f.signal.filter (fun s => s.isSome) ∧
    (_bucketAndCalcSignalReturns f p H).1.fwdCols.length = max f.fwdCols.length H ∧
    (∀ j, j < f.fwdCols.length →
      (_bucketAndCalcSignalReturns f p H).1.fwdCols.getD j [] =
        ((f.signal.zip (f.fwdCols.getD j [])).filter (fun q => q.1.isSome)).map
          Prod.snd) ∧
    (∀ j, f.fwdCols.length ≤ j → j < max f.fwdCols.length H →
      (_bucketAndCalcSignalReturns f p H).1.fwdCols.getD j [] =
        fwdReturnsCol ((_bucketAndCalcSignalReturns f p H).1.c) (j + 1)) ∧
    (_bucketAndCalcSignalReturns f p H).1.normalized =
      some (((_bucketAndCalcSignalReturns f p H).1.signal).map
        (Option.map (roundTo p))) := by
  have hpost : (_bucketAndCalcSignalReturns f p H).1 =
      ⟨f.dropna.c, f.dropna.signal,
        (List.range (max f.dropna.fwdCols.length H)).map
          (fun j => if j < f.dropna.fwdCols.length then f.dropna.fwdCols.getD j []
            else fwdReturnsCol f.dropna.c (j + 1)),
        some (f.dropna.signal.map (Option.map (roundTo p)))⟩ := rfl
  have hflen : f.dropna.fwdCols.length = f.fwdCols.length := by
    simp [Frame.dropna]
  rw [hpost]
  refine ⟨maskFilter_zip f.signal f.c, maskFilter_self f.signal, ?_, ?_, ?_, rfl⟩
  · simp [hflen]
  · intro j hj
    have hjmax : j < max f.dropna.fwdCols.length H := by omega
    show ((List.range (max f.dropna.fwdCols.length H)).map
      (fun j => if j < f.dropna.fwdCols.length then f.dropna.fwdCols.getD j []
        else fwdReturnsCol f.dropna.c (j + 1))).getD j [] = _
    rw [getD_range_map _ _ _ _ hjmax, if_pos (by omega)]
    show (f.fwdCols.map
      (maskFilter (f.signal.map (fun s => s.isSome)))).getD j [] = _
    rw [getD_map_col _ _ _ hj _ []]
    exact maskFilter_zip f.signal (f.fwdCols.getD j [])
  · intro j hj1 hj2
    have hjmax : j < max f.dropna.fwdCols.length H := by omega
    show ((List.range (max f.dropna.fwdCols.length H)).map
      (fun j => if j < f.dropna.fwdCols.length then f.dropna.fwdCols.getD j []
        else fwdReturnsCol f.dropna.c (j + 1))).getD j [] = _
    rw [getD_range_map _ _ _ _ hjmax, if_neg (by omega)]

/-- Witness for the amended C9 on a concrete frame with one missing signal
entry and one pre-existing forward-return column. -/
theorem C9_frame_mutation_witness :
    (_bucketAndCalcSignalReturns
        ⟨[100, 110, 121], [some 1, none, some 2], [[some 5, none, some 6]], none⟩
        0 2).1.c = [100, 121] ∧
    (_bucketAndCalcSignalReturns
        ⟨[100, 110, 121], [some 1, none, some 2], [[some 5, none, some 6]], none⟩
        0 2).1.signal = [some 1, some 2] ∧
    (_bucketAndCalcSignalReturns
        ⟨[100, 110, 121], [some 1, none, some 2], [[some 5, none, some 6]], none⟩
        0 2).1.fwdCols.length = 2 ∧
    (_bucketAndCalcSignalReturns
        ⟨[100, 110, 121], [some 1, none, some 2], [[some 5, none, some 6]], none⟩
        0 2).1.fwdCols.getD 0 [] = [some 5, some 6] ∧
    (_bucketAndCalcSignalReturns
        ⟨[100, 110, 121], [some 1, none, some 2], [[some 5, none, some 6]], none⟩
        0 2).1.fwdCols.getD 1 [] = fwdReturnsCol [100, 121] 2 := by
  have h := C9_frame_mutation
    ⟨[100, 110, 121], [some 1, none, some 2], [[some 5, none, some 6]], none⟩ 0 2
  refine ⟨?_, ?_, ?_, ?_, ?_⟩
  · rw [h.1]
    simp
  · rw [h.2.1]
    simp
  · rw [h.2.2.1]
    simp
  · rw [h.2.2.2.1 0 (by norm_num)]
    simp
  · rw [h.2.2.2.2.1 1 (by norm_num) (by norm_num), h.1]
    simp

/-! ### Group-by lemmas for the clean-input aggregation (C7) -/

theorem maskFilter_some_map {α : Type} :
    ∀ (sig : List ℚ) (l : List α), sig.length = l.length →
      maskFilter ((sig.map some).map (fun s => s.isSome)) l = l := by
  intro sig
  induction sig with
  | nil =>
      intro l hl
      cases l with
      | nil => rfl
      | cons x xs => cases hl
  | cons s ss ih =>
      intro l hl
      cases l with
      | nil => cases hl
      | cons x xs =>
          simp only [List.map_cons, Option.isSome_some, maskFilter]
          rw [ih xs (by simpa using hl)]

theorem sortedDescKeys_sorted (keys : List ℚ) :
    List.Pairwise (fun a b => b < a) (sortedDescKeys keys) := by
  have hperm : (keys.dedup.mergeSort (fun a b => decide (b ≤ a))).Perm keys.dedup :=
    List.mergeSort_perm _ _
  have hsorted : List.Pairwise (fun a b => (fun a b => decide (b ≤ a)) a b = true)
      (keys.dedup.mergeSort (fun a b => decide (b ≤ a))) := by
    apply List.sorted_mergeSort
    · intro a b c h1 h2
      simp only [decide_eq_true_eq] at *
      exact le_trans h2 h1
    · intro a b
      simpa using le_total b a
  have hge : List.Pairwise (fun a b : ℚ => b ≤ a)
      (keys.dedup.mergeSort (fun a b => decide (b ≤ a))) := by
    apply hsorted.imp
    intro a b h
    simpa using h
  have hnodup : (keys.dedup.mergeSort (fun a b => decide (b ≤ a))).Nodup :=
    hperm.nodup_iff.mpr (List.nodup_dedup keys)
  have hand := List.Pairwise.and hge hnodup
  apply hand.imp
  intro a b h
  exact lt_of_le_of_ne h.1 (Ne.symm h.2)

theorem sortedDescKeys_mem (keys : List ℚ) (k : ℚ) :
    k ∈ sortedDescKeys keys ↔ k ∈ keys := by
  rw [sortedDescKeys, (List.mergeSort_perm _ _).mem_iff, List.mem_dedup]

theorem mem_map_iff_getD (f : ℚ → ℚ) (l : List ℚ) (k : ℚ) :
    k ∈ l.map f ↔ ∃ t, t < l.length ∧ f (l.getD t 0) = k := by
  rw [List.mem_map]
  constructor
  · rintro ⟨x, hx, rfl⟩
    obtain ⟨t, ht, rfl⟩ := List.mem_iff_getElem.mp hx
    exact ⟨t, ht, by rw [List.getD_eq_getElem _ _ ht]⟩
  · rintro ⟨t, ht, rfl⟩
    refine ⟨l.getD t 0, ?_, rfl⟩
    rw [List.getD_eq_getElem _ _ ht]
    exact List.getElem_mem ht

theorem map_fst_pairs {β : Type} (g : ℚ → β) :
    ∀ keys : List ℚ, ((keys.map (fun k => (k, g k))).map Prod.fst) = keys := by
  intro keys
  induction keys with
  | nil => rfl
  | cons x xs ih => simp [ih]

theorem filterMap_ite {α β : Type} (q : α → Prop) [DecidablePred q] (g : α → β) :
    ∀ l : List α, l.filterMap (fun t => if q t then some (g t) else none) =
      (l.filter (fun t => decide (q t))).map g := by
  intro l
  induction l with
  | nil => simp
  | cons x xs ih =>
      by_cases hx : q x
      · simp [hx, ih]
      · simp [hx, ih]

/-- The group-by result of `_bucketAndCalcSignalReturns`, with the
let-bindings of the definition expanded (definitional). -/
theorem bucket_snd_def (f : Frame) (p H : ℕ) :
    (_bucketAndCalcSignalReturns f p H).2 =
      (sortedDescKeys ((f.dropna.signal.map (Option.map (roundTo p))).filterMap id)).map
        (fun k => (k, (List.range H).map (fun pp =>
          groupMean (((List.range f.dropna.signal.length).filter
            (fun t => (f.dropna.signal.map (Option.map (roundTo p))).getD t none =
              some k)).map
              (fun t => (((List.range (max f.dropna.fwdCols.length H)).map
                (fun j => if j < f.dropna.fwdCols.length then f.dropna.fwdCols.getD j []
                  else fwdReturnsCol f.dropna.c (j + 1))).getD pp []).getD t none))))) :=
  rfl

/-- C7: on an input whose signal column has no missing entries (the claim's
premise: missing entries already dropped), the group-by table of
`_bucketAndCalcSignalReturns` has bucket keys round(signal[t], precision)
sorted strictly descending, a key appears exactly when some position rounds
to it, and each row carries, for horizons ascending h = 1..H, the
arithmetic mean of forward-return(h, t) = prices[t+h]/prices[t] − 1 over
the group's positions, positions without a forward return (t + h ≥ n)
excluded from the mean rather than counted as zero. -/
theorem C7_bucket_and_aggregate (c sig : List ℚ) (p H : ℕ)
    (hlen : c.length = sig.length) :
    List.Pairwise (fun a b => b < a)
      (((_bucketAndCalcSignalReturns ⟨c, sig.map some, [], none⟩ p H).2).map
        Prod.fst) ∧
    (∀ k, (k ∈ ((_bucketAndCalcSignalReturns ⟨c, sig.map some, [], none⟩ p H).2).map
        Prod.fst ↔
      ∃ t, t < sig.length ∧ roundTo p (sig.getD t 0) = k)) ∧
    (∀ k ms, (k, ms) ∈ (_bucketAndCalcSignalReturns ⟨c, sig.map some, [], none⟩ p H).2 →
      ms.length = H ∧
      ∀ h, 1 ≤ h → h ≤ H →
        ms.getD (h - 1) none =
          (if ((List.range sig.length).filter
              (fun t => decide (roundTo p (sig.getD t 0) = k) &&
                decide (t + h < sig.length))) = []
           then none
           else some ((((List.range sig.length).filter
              (fun t => decide (roundTo p (sig.getD t 0) = k) &&
                decide (t + h < sig.length))).map
                (fun t => c.getD (t + h) 0 / c.getD t 0 - 1)).sum /
            ((List.range sig.length).filter
              (fun t => decide (roundTo p (sig.getD t 0) = k) &&
                decide (t + h < sig.length))).length))) := by
  have hdrop : Frame.dropna ⟨c, sig.map some, [], none⟩ = ⟨c, sig.map some, [], none⟩ := by
    rw [Frame.dropna]
    simp only [maskFilter_some_map sig c hlen.symm,
      maskFilter_some_map sig (sig.map some) (by simp), List.map_nil, Option.map_none']
  have hnormkeys : (((sig.map some).map (Option.map (roundTo p))).filterMap id) =
      sig.map (roundTo p) := by
    rw [List.map_map]
    rw [show (Option.map (roundTo p) ∘ some) = some ∘ (roundTo p) from rfl]
    rw [List.filterMap_map]
    rw [show (id ∘ (some ∘ roundTo p) : ℚ → Option ℚ) = some ∘ roundTo p from rfl]
    exact congrFun (List.filterMap_eq_map (roundTo p)) sig
  have hnormget : ∀ t, t < sig.length →
      ((sig.map some).map (Option.map (roundTo p))).getD t none =
        some (roundTo p (sig.getD t 0)) := by
    intro t ht
    rw [List.map_map]
    exact getD_map_col _ sig t ht none 0
  have hR : (_bucketAndCalcSignalReturns ⟨c, sig.map some, [], none⟩ p H).2 =
      (sortedDescKeys (sig.map (roundTo p))).map
        (fun k => (k, (List.range H).map (fun pp =>
          groupMean (((List.range sig.length).filter
            (fun t => ((sig.map some).map (Option.map (roundTo p))).getD t none =
              some k)).map
              (fun t => (((List.range H).map
                (fun j => fwdReturnsCol c (j + 1))).getD pp []).getD t none))))) := by
    rw [bucket_snd_def, hdrop]
    simp only [hnormkeys, List.length_map, List.length_nil, Nat.zero_max,
      Nat.not_lt_zero, if_false]
  have hfst : (((_bucketAndCalcSignalReturns ⟨c, sig.map some, [], none⟩ p H).2).map
      Prod.fst) = sortedDescKeys (sig.map (roundTo p)) := by
    rw [hR]
    exact map_fst_pairs _ _
  refine ⟨?_, ?_, ?_⟩
  · rw [hfst]
    exact sortedDescKeys_sorted _
  · intro k
    rw [hfst, sortedDescKeys_mem, mem_map_iff_getD]
  · intro k ms hmem
    rw [hR] at hmem
    obtain ⟨k', hk', hpair⟩ := List.mem_map.mp hmem
    injection hpair with hk1 hk2
    subst hk1
    subst hk2
    constructor
    · simp
    · intro h h1 h2
      rw [getD_range_map _ _ _ _ (by omega : h - 1 < H)]
      have hcol : ((List.range H).map (fun j => fwdReturnsCol c (j + 1))).getD (h - 1) [] =
          fwdReturnsCol c h := by
        rw [getD_range_map _ _ _ _ (by omega : h - 1 < H)]
        congr 1
        omega
      rw [hcol]
      have hfilter : ((List.range sig.length).filter
          (fun t => ((sig.map some).map (Option.map (roundTo p))).getD t none = some k')) =
          ((List.range sig.length).filter
            (fun t => decide (roundTo p (sig.getD t 0) = k'))) := by
        apply List.filter_congr
        intro t ht
        have htn : t < sig.length := by simpa using ht
        rw [hnormget t htn, decide_eq_decide]
        exact Option.some_inj
      rw [hfilter]
      have hmap : (((List.range sig.length).filter
          (fun t => decide (roundTo p (sig.getD t 0) = k'))).map
            (fun t => (fwdReturnsCol c h).getD t none)) =
          (((List.range sig.length).filter
            (fun t => decide (roundTo p (sig.getD t 0) = k'))).map
            (fun t => if t + h < c.length
              then some (c.getD (t + h) 0 / c.getD t 0 - 1) else none)) := by
        apply List.map_congr_left
        intro t ht
        have htn : t < c.length := by
          rw [hlen]
          have := List.mem_filter.mp ht
          simpa using this.1
        exact fwdReturnsCol_entry c h t htn
      rw [hmap, groupMean]
      rw [List.filterMap_map]
      rw [show ((id : Option ℚ → Option ℚ) ∘ (fun t => if t + h < c.length
          then some (c.getD (t + h) 0 / c.getD t 0 - 1) else none)) =
        (fun t => if t + h < c.length
          then some (c.getD (t + h) 0 / c.getD t 0 - 1) else none) from rfl]
      rw [filterMap_ite (fun t => t + h < c.length) (fun t => c.getD (t + h) 0 / c.getD t 0 - 1)]
      rw [List.filter_filter]
      have hfilter2 : ((List.range sig.length).filter
          (fun t => decide (t + h < c.length) && decide (roundTo p (sig.getD t 0) = k'))) =
          ((List.range sig.length).filter
            (fun t => decide (roundTo p (sig.getD t 0) = k') &&
              decide (t + h < sig.length))) := by
        apply List.filter_congr
        intro t ht
        rw [hlen, Bool.and_comm]
      rw [hfilter2]
      set T := (List.range sig.length).filter
        (fun t => decide (roundTo p (sig.getD t 0) = k') && decide (t + h < sig.length)) with hT
      by_cases hTe : T = []
      · rw [hTe]
        simp
      · rw [if_neg (by simpa using hTe), if_neg hTe]
        simp

/-- Witness for C7 at prices [100, 110, 121], signal [1, 1, 2],
rounding 0, maxHorizon 1. -/
theorem C7_bucket_and_aggregate_witness :
    List.Pairwise (fun a b => b < a)
      (((_bucketAndCalcSignalReturns
        ⟨[100, 110, 121], [(1 : ℚ), 1, 2].map some, [], none⟩ 0 1).2).map Prod.fst) ∧
    (∀ k ms, (k, ms) ∈ (_bucketAndCalcSignalReturns
        ⟨[100, 110, 121], [(1 : ℚ), 1, 2].map some, [], none⟩ 0 1).2 →
      ms.length = 1) := by
  have h := C7_bucket_and_aggregate [100, 110, 121] [1, 1, 2] 0 1 (by norm_num)
  exact ⟨h.1, fun k ms hm => (h.2.2 k ms hm).1⟩

/-! ### Order lemmas for the percentile interpolation -/

theorem sortQ_sorted (l : List ℚ) : List.Sorted (· ≤ ·) (sortQ l) :=
  List.sorted_mergeSort' l

theorem sortQ_length (l : List ℚ) : (sortQ l).length = l.length :=
  List.length_mergeSort l

theorem sorted_getD_mono {s : List ℚ} (hs : List.Sorted (· ≤ ·) s)
    {i j : ℕ} (hij : i ≤ j) (hj : j < s.length) : s.getD i 0 ≤ s.getD j 0 := by
  rcases eq_or_lt_of_le hij with rfl | hlt
  · exact le_refl _
  · rw [List.getD_eq_getElem _ _ (lt_of_le_of_lt hij hj), List.getD_eq_getElem _ _ hj]
    have := List.Sorted.rel_get_of_lt hs
      (a := ⟨i, lt_of_le_of_lt hij hj⟩) (b := ⟨j, hj⟩) hlt
    simpa using this

theorem floor_toNat_cast_le {p : ℚ} (hp : 0 ≤ p) : ((⌊p⌋.toNat : ℚ)) ≤ p := by
  have h1 : ((⌊p⌋.toNat : ℤ) : ℚ) ≤ p := by
    rw [Int.toNat_of_nonneg (Int.floor_nonneg.mpr hp)]
    exact Int.floor_le p
  exact_mod_cast h1

theorem lt_floor_toNat_add_one {p : ℚ} (hp : 0 ≤ p) : p < (⌊p⌋.toNat : ℚ) + 1 := by
  have h1 : p < ((⌊p⌋.toNat : ℤ) : ℚ) + 1 := by
    rw [Int.toNat_of_nonneg (Int.floor_nonneg.mpr hp)]
    exact_mod_cast Int.lt_floor_add_one p
  exact_mod_cast h1

theorem interp_ge_floor {s : List ℚ} (hs : List.Sorted (· ≤ ·) s) {p : ℚ} (hp : 0 ≤ p) :
    s.getD (⌊p⌋).toNat 0 ≤ interpSorted s p := by
  rw [interpSorted]
  by_cases hb : (⌊p⌋).toNat + 1 < s.length
  · rw [if_pos hb]
    have hfrac : 0 ≤ p - ((⌊p⌋).toNat : ℚ) := by
      have := floor_toNat_cast_le hp
      linarith
    have hdelta : 0 ≤ s.getD ((⌊p⌋).toNat + 1) 0 - s.getD (⌊p⌋).toNat 0 := by
      have := sorted_getD_mono hs (Nat.le_succ _) hb
      linarith
    nlinarith
  · rw [if_neg hb]

theorem interp_le_succ {s : List ℚ} (hs : List.Sorted (· ≤ ·) s) {p : ℚ} (hp : 0 ≤ p)
    (hb : (⌊p⌋).toNat + 1 < s.length) :
    interpSorted s p ≤ s.getD ((⌊p⌋).toNat + 1) 0 := by
  rw [interpSorted, if_pos hb]
  have hfrac1 : p - ((⌊p⌋).toNat : ℚ) < 1 := by
    have := lt_floor_toNat_add_one hp
    linarith
  have hdelta : 0 ≤ s.getD ((⌊p⌋).toNat + 1) 0 - s.getD (⌊p⌋).toNat 0 := by
    have := sorted_getD_mono hs (Nat.le_succ _) hb
    linarith
  nlinarith

theorem interpSorted_mono {s : List ℚ} (hs : List.Sorted (· ≤ ·) s)
    {p1 p2 : ℚ} (h0 : 0 ≤ p1) (h12 : p1 ≤ p2) (h2 : p2 ≤ (s.length : ℚ) - 1) :
    interpSorted s p1 ≤ interpSorted s p2 := by
  have h02 : 0 ≤ p2 := le_trans h0 h12
  have hk12 : (⌊p1⌋).toNat ≤ (⌊p2⌋).toNat :=
    Int.toNat_le_toNat (Int.floor_le_floor h12)
  have hk2m : (⌊p2⌋).toNat < s.length := by
    have hc : ((⌊p2⌋.toNat : ℚ)) ≤ (s.length : ℚ) - 1 :=
      le_trans (floor_toNat_cast_le h02) h2
    have : ((⌊p2⌋.toNat : ℚ)) + 1 ≤ (s.length : ℚ) := by linarith
    exact_mod_cast this
  rcases eq_or_lt_of_le hk12 with heq | hlt
  · rw [interpSorted, interpSorted, ← heq]
    by_cases hb : (⌊p1⌋).toNat + 1 < s.length
    · rw [if_pos hb, if_pos hb]
      have hdelta : 0 ≤ s.getD ((⌊p1⌋).toNat + 1) 0 - s.getD (⌊p1⌋).toNat 0 := by
        have := sorted_getD_mono hs (Nat.le_succ _) hb
        linarith
      have hfr : p1 - ((⌊p1⌋).toNat : ℚ) ≤ p2 - ((⌊p1⌋).toNat : ℚ) := by linarith
      nlinarith
    · rw [if_neg hb, if_neg hb]
  · have h1b : (⌊p1⌋).toNat + 1 < s.length := by omega
    calc interpSorted s p1 ≤ s.getD ((⌊p1⌋).toNat + 1) 0 := interp_le_succ hs h0 h1b
      _ ≤ s.getD (⌊p2⌋).toNat 0 := sorted_getD_mono hs (by omega) hk2m
      _ ≤ interpSorted s p2 := interp_ge_floor hs h02

theorem npPercentile_mono (l : List ℚ) (hne : l ≠ []) {q1 q2 : ℚ}
    (h0 : 0 ≤ q1) (h12 : q1 ≤ q2) (h2 : q2 ≤ 100) :
    npPercentile l q1 ≤ npPercentile l q2 := by
  have hm : 1 ≤ (sortQ l).length := by
    rw [sortQ_length]
    exact List.length_pos.mpr hne
  have hm0 : (0 : ℚ) ≤ ((sortQ l).length : ℚ) - 1 := by
    have : (1 : ℚ) ≤ ((sortQ l).length : ℚ) := by exact_mod_cast hm
    linarith
  rw [npPercentile, npPercentile]
  apply interpSorted_mono (sortQ_sorted l)
  · positivity
  · apply div_le_div_of_nonneg_right _ (by norm_num)
    exact mul_le_mul_of_nonneg_left h12 hm0
  · rw [div_le_iff (by norm_num : (0:ℚ) < 100)]
    nlinarith

theorem decileBreakpoints_length (w : List ℚ) : (decileBreakpoints w).length = 9 := by
  simp [decileBreakpoints]

theorem decileBreakpoints_ascending (w : List ℚ) (hne : w ≠ [])
    {j1 j2 : ℕ} (h12 : j1 ≤ j2) (h2 : j2 < 9) :
    (decileBreakpoints w).getD j1 0 ≤ (decileBreakpoints w).getD j2 0 := by
  rw [decileBreakpoints, getD_range_map _ _ _ _ (lt_of_le_of_lt h12 h2),
    getD_range_map _ _ _ _ h2]
  apply npPercentile_mono w hne
  · positivity
  · have : ((j1 : ℚ)) ≤ (j2 : ℚ) := by exact_mod_cast h12
    linarith
  · have : ((j2 : ℚ)) ≤ 8 := by exact_mod_cast Nat.lt_succ_iff.mp h2
    linarith

/-- The loop of `find_decile`: either it returns `i + j` for the least
in-range `j` whose breakpoint is ≥ the value, or no breakpoint qualifies and
it returns 9. -/
theorem findDecileFrom_spec (v : ℚ) : ∀ (l : List ℚ) (i : ℕ),
    (∃ j, j < l.length ∧ v ≤ l.getD j 0 ∧ (∀ j', j' < j → ¬ v ≤ l.getD j' 0) ∧
      findDecileFrom v l i = i + j) ∨
    ((∀ j, j < l.length → ¬ v ≤ l.getD j 0) ∧ findDecileFrom v l i = 9) := by
  intro l
  induction l with
  | nil =>
      intro i
      right
      refine ⟨?_, rfl⟩
      intro j hj
      simp at hj
  | cons d rest ih =>
      intro i
      by_cases hd : v ≤ d
      · left
        refine ⟨0, by simp, by simpa using hd, ?_, ?_⟩
        · intro j' hj'
          exact absurd hj' (Nat.not_lt_zero j')
        · rw [findDecileFrom, if_pos hd]
          omega
      · rcases ih (i + 1) with ⟨j, hjlt, hle, hmin, heq⟩ | ⟨hall, heq⟩
        · left
          refine ⟨j + 1, by simpa using hjlt, by simpa using hle, ?_, ?_⟩
          · intro j' hj'
            cases j' with
            | zero => simpa using hd
            | succ j'' =>
                have : j'' < j := by omega
                simpa using hmin j'' this
          · rw [findDecileFrom, if_neg hd, heq]
            omega
        · right
          refine ⟨?_, by rw [findDecileFrom, if_neg hd, heq]⟩
          intro j hj
          cases j with
          | zero => simpa using hd
          | succ j'' =>
              have : j'' < rest.length := by simpa using hj
              simpa using hall j'' this

/-- C3: whenever compute_deciles_with_rank returns a result, the rank at
each index t ≥ windowSize−1 is computed against the 9 ascending percentile
breakpoints of the self-inclusive trailing window
values[t−windowSize+1 .. t]: it is the smallest j ∈ [0,8] with
value ≤ breakpoint[j] (ties to the lower bucket), it is 9 exactly when the
value exceeds the 90th-percentile breakpoint, and every position
t < windowSize−1 is missing. -/
theorem C3_decile_rank (values : List ℚ) (wsize : ℕ)
    (dec : List (List ℚ)) (ranks : List (Option ℕ))
    (hres : compute_deciles_with_rank values wsize = some (dec, ranks)) :
    (∀ t, wsize - 1 ≤ t → t < values.length →
      ∃ r, ranks.getD t none = some r ∧ r ≤ 9 ∧
        (∀ j, j < r →
          (decileBreakpoints ((List.range wsize).map
            (fun k => values.getD (t + 1 - wsize + k) 0))).getD j 0 < values.getD t 0) ∧
        (r < 9 → values.getD t 0 ≤
          (decileBreakpoints ((List.range wsize).map
            (fun k => values.getD (t + 1 - wsize + k) 0))).getD r 0) ∧
        (r = 9 ↔
          (decileBreakpoints ((List.range wsize).map
            (fun k => values.getD (t + 1 - wsize + k) 0))).getD 8 0 < values.getD t 0)) ∧
    (∀ t, t < wsize - 1 → ranks.getD t none = none) := by
  have hcond : 1 ≤ wsize ∧ wsize ≤ values.length := by
    by_contra hc
    rw [compute_deciles_with_rank, if_neg hc] at hres
    cases hres
  rw [compute_deciles_with_rank, if_pos hcond, Option.some.injEq, Prod.mk.injEq] at hres
  obtain ⟨hdec, hranks⟩ := hres
  constructor
  · intro t hts htn
    set w := (List.range wsize).map (fun k => values.getD (t + 1 - wsize + k) 0) with hw
    have hslice : pySlice values (t + 1 - wsize) (t + 1) = w := by
      have hq := pySlice_eq_range_map values (t + 1 - wsize) wsize (by omega)
      have h2 : t + 1 - wsize + wsize = t + 1 := by omega
      rw [h2] at hq
      exact hq
    have hwne : w ≠ [] := by
      rw [hw]
      intro hnil
      have := congrArg List.length hnil
      simp at this
      omega
    have hbl : (decileBreakpoints w).length = 9 := decileBreakpoints_length w
    have hrt : ranks.getD t none =
        some (find_decile (values.getD t 0) (decileBreakpoints w)) := by
      rw [← hranks, getD_range_map _ _ _ _ htn, if_pos hts, hslice]
    refine ⟨find_decile (values.getD t 0) (decileBreakpoints w), hrt, ?_⟩
    rcases findDecileFrom_spec (values.getD t 0) (decileBreakpoints w) 0 with
      ⟨j, hjlt, hle, hmin, heq⟩ | ⟨hall, heq⟩
    · rw [find_decile, heq, Nat.zero_add]
      rw [hbl] at hjlt
      refine ⟨by omega, ?_, fun _ => hle, ?_⟩
      · intro j' hj'
        exact lt_of_not_le (hmin j' hj')
      · constructor
        · intro h9
          omega
        · intro hlt8
          exfalso
          have hasc : values.getD t 0 ≤ (decileBreakpoints w).getD 8 0 :=
            le_trans hle (decileBreakpoints_ascending w hwne (by omega) (by omega))
          linarith
    · rw [find_decile, heq]
      have hall9 : ∀ j, j < 9 → ¬ values.getD t 0 ≤ (decileBreakpoints w).getD j 0 := by
        intro j hj
        exact hall j (by rw [hbl]; omega)
      refine ⟨le_refl 9, ?_, ?_, ?_⟩
      · intro j hj
        exact lt_of_not_le (hall9 j (by omega))
      · intro h
        omega
      · exact ⟨fun _ => lt_of_not_le (hall9 8 (by omega)), fun _ => rfl⟩
  · intro t htlt
    have htn : t < values.length := by omega
    rw [← hranks, getD_range_map _ _ _ _ htn, if_neg (by omega)]

/-- Witness for C3 at values = [1, 2, 3], windowSize = 3, t = 2: the window
is [1, 2, 3], its breakpoints run 6/5 .. 14/5, and the value 3 exceeds the
90th percentile 14/5, so the rank is 9. -/
theorem C3_decile_rank_witness :
    ∃ r, (([none, none, some 9] : List (Option ℕ))).getD 2 none = some r ∧ r ≤ 9 ∧
      (∀ j, j < r →
        (decileBreakpoints ((List.range 3).map
          (fun k => ([1, 2, 3] : List ℚ).getD (2 + 1 - 3 + k) 0))).getD j 0 <
          ([1, 2, 3] : List ℚ).getD 2 0) ∧
      (r < 9 → ([1, 2, 3] : List ℚ).getD 2 0 ≤
        (decileBreakpoints ((List.range 3).map
          (fun k => ([1, 2, 3] : List ℚ).getD (2 + 1 - 3 + k) 0))).getD r 0) ∧
      (r = 9 ↔
        (decileBreakpoints ((List.range 3).map
          (fun k => ([1, 2, 3] : List ℚ).getD (2 + 1 - 3 + k) 0))).getD 8 0 <
          ([1, 2, 3] : List ℚ).getD 2 0) := by
  have hb : decileBreakpoints [1, 2, 3] =
      [6/5, 7/5, 8/5, 9/5, 2, 11/5, 12/5, 13/5, 14/5] := by
    norm_num [decileBreakpoints, npPercentile, interpSorted, sortQ, List.mergeSort,
      List.range_succ]
  have hf : find_decile 3 [6/5, 7/5, 8/5, 9/5, 2, 11/5, 12/5, 13/5, 14/5] = 9 := by
    norm_num [find_decile, findDecileFrom]
  have hres : compute_deciles_with_rank [1, 2, 3] 3 =
      some ([[6/5, 7/5, 8/5, 9/5, 2, 11/5, 12/5, 13/5, 14/5]], [none, none, some 9]) := by
    rw [compute_deciles_with_rank, if_pos (by norm_num)]
    norm_num [List.range_succ, pySlice, hb, hf]
  exact (C3_decile_rank [1, 2, 3] 3
    [[6/5, 7/5, 8/5, 9/5, 2, 11/5, 12/5, 13/5, 14/5]] [none, none, some 9] hres).1 2
    (by norm_num) (by norm_num)

/-- C8 counterexample: on a series strictly shorter than the window the
decile ranker does NOT return an all-missing result — `sliding_window_view`
raises, so no result is produced at all (here: [1, 2] with window 3). -/
theorem C8_counterexample :
    compute_deciles_with_rank [1, 2] 3 = none ∧
    ¬ ∃ dec ranks, compute_deciles_with_rank [1, 2] 3 = some (dec, ranks) := by
  have h : compute_deciles_with_rank [1, 2] 3 = none := by
    rw [compute_deciles_with_rank, if_neg (by norm_num)]
  refine ⟨h, ?_⟩
  rintro ⟨d, r, hr⟩
  rw [h] at hr
  cases hr

/-- C8 amended: for a series strictly shorter than the window, EWMA and the
z-score operations return an all-missing result of the input's length
without raising, but the decile ranker raises (returns no result). -/
theorem C8_short_series (values : List ℚ) (W : ℕ) (alpha : ℚ)
    (h : values.length < W) :
    exponentially_weighted_moving_average values W alpha = values.map (fun _ => none) ∧
    rolling_zscore values W = values.map (fun _ => none) ∧
    zscore values W = values.map (fun _ => none) ∧
    compute_deciles_with_rank values W = none := by
  have hz : rolling_zscore values W = values.map (fun _ => none) := by
    apply List.ext_getElem
    · simp [rolling_zscore]
    · intro n h1 h2
      have hn : n < values.length := by simpa [rolling_zscore] using h1
      simp only [rolling_zscore, List.getElem_map, List.getElem_range]
      rw [if_neg (by omega)]
  refine ⟨?_, hz, ?_, ?_⟩
  · apply List.ext_getElem
    · simp [exponentially_weighted_moving_average]
    · intro n h1 h2
      have hn : n < values.length := by
        simpa [exponentially_weighted_moving_average] using h1
      simp only [exponentially_weighted_moving_average, List.getElem_map, List.getElem_range]
      rw [if_pos (by omega)]
  · rw [zscore, if_neg (by omega)]
    exact hz
  · rw [compute_deciles_with_rank, if_neg (by omega)]

/-- Witness for the amended C8 at values = [1, 2], window 3. -/
theorem C8_short_series_witness :
    exponentially_weighted_moving_average [1, 2] 3 (1/2) = [none, none] ∧
    rolling_zscore [1, 2] 3 = [none, none] ∧
    zscore [1, 2] 3 = [none, none] ∧
    compute_deciles_with_rank [1, 2] 3 = none := by
  have h := C8_short_series [1, 2] 3 (1/2) (by norm_num)
  simpa using h

/-! ### C6: the zero-variance guard -/

theorem varianceQ_const (l : List ℚ) (c : ℚ) (hc : ∀ x ∈ l, x = c) : varianceQ l = 0 := by
  rcases eq_or_ne l [] with rfl | hne
  · simp [varianceQ, npMean]
  · have hlen : (l.length : ℚ) ≠ 0 := by
      have h2 : 0 < l.length := List.length_pos.mpr hne
      exact_mod_cast Nat.pos_iff_ne_zero.mp h2
    have hmean : npMean l = c := by
      have hsum : l.sum = l.length • c := List.sum_eq_card_nsmul l c hc
      rw [npMean, hsum, nsmul_eq_mul, mul_comm, mul_div_assoc, div_self hlen, mul_one]
    have hzero : (l.map (fun x => (x - npMean l) ^ 2)).sum = 0 := by
      apply List.sum_eq_zero
      intro x hx
      rcases List.mem_map.mp hx with ⟨y, hy, rfl⟩
      rw [hmean, hc y hy]
      ring
    rw [varianceQ, hzero, zero_div]

theorem npStd_const (l : List ℚ) (c : ℚ) (hc : ∀ x ∈ l, x = c) : npStd l = 0 := by
  rw [npStd, varianceQ_const l c hc]
  simp

/-- C6 counterexample: in the `window == 0` full-population mode the division
by the standard deviation is NOT guarded; on the constant array [5, 5, 5]
(zero variance) every z-score is NaN (missing), not 0, contradicting the
claim that the z-score equals exactly 0 in every mode. -/
theorem C6_counterexample :
    zscore [5, 5, 5] 0 = [none, none, none] ∧
    ¬ (zscore [5, 5, 5] 0).getD 0 none = some 0 := by
  have hstd : npStd [5, 5, 5] = 0 := by
    apply npStd_const _ 5
    intro x hx
    simp only [List.mem_cons, List.not_mem_nil, or_false] at hx
    rcases hx with h | h | h <;> exact h
  constructor
  · simp [zscore, hstd]
  · simp [zscore, hstd]

/-- C6 amended: in rolling mode (window W ≥ 1) the division is guarded and a
constant (zero-variance) window yields a z-score of exactly 0, never
NaN/Inf; but in the `window == 0` full-population mode the division is
unguarded, and a constant value array yields missing (NaN/Inf) at every
position instead of 0. -/
theorem C6_zero_variance_guard (values : List ℚ) (W : ℕ) (hW : 1 ≤ W) :
    (∀ i c, W - 1 ≤ i → i < values.length →
      (∀ k, k < W → values.getD (i + 1 - W + k) 0 = c) →
      (rolling_zscore values W).getD i none = some 0) ∧
    (∀ c : ℚ, (∀ x ∈ values, x = c) →
      zscore values 0 = values.map (fun _ => none)) := by
  constructor
  · intro i c hmi hi hconst
    have hz_slice : pySlice values (i + 1 - W) (i + 1) =
        (List.range W).map (fun k => values.getD (i + 1 - W + k) 0) := by
      have hq := pySlice_eq_range_map values (i + 1 - W) W (by omega)
      have h2 : i + 1 - W + W = i + 1 := by omega
      rwa [h2] at hq
    rw [rolling_zscore, getD_range_map _ _ _ _ hi, if_pos (by omega)]
    have hcw : ∀ x ∈ pySlice values (i + 1 - W) (i + 1), x = c := by
      intro x hx
      rw [hz_slice] at hx
      rcases List.mem_map.mp hx with ⟨k, hk, rfl⟩
      exact hconst k (by simpa using hk)
    rw [zscoreVal, if_pos (npStd_const _ c hcw)]
  · intro c hconst
    have hstd : npStd values = 0 := npStd_const values c hconst
    rw [zscore, if_pos rfl]
    apply List.map_congr_left
    intro v hv
    rw [if_pos hstd]

/-- Witness for the amended C6 at values = [5, 5, 5]: rolling window 3 gives
exactly 0 at index 2, while the window-0 full-population mode gives missing
everywhere. -/
theorem C6_zero_variance_guard_witness :
    (rolling_zscore [5, 5, 5] 3).getD 2 none = some 0 ∧
    zscore [5, 5, 5] 0 = [none, none, none] := by
  have h := C6_zero_variance_guard [5, 5, 5] 3 (by norm_num)
  constructor
  · apply h.1 2 5 (by norm_num) (by norm_num)
    intro k hk
    interval_cases k <;> norm_num
  · have h2 := h.2 5 (by
      intro x hx
      simp only [List.mem_cons, List.not_mem_nil, or_false] at hx
      rcases hx with h | h | h <;> exact h)
    simpa using h2

/-- C10: every per-position indicator operation (EWMA, momentum, the
momentum variant, rolling standard deviation, rolling z-score, zscore in
both modes, and the decile rank array of compute_deciles_with_rank when it
returns one) produces an output of the same length as its input, aligned
index for index. -/
theorem C10_length_preservation (values prices : List ℚ) (popt : List (Option ℚ))
    (L lb W : ℕ) (alpha : ℚ) :
    (exponentially_weighted_moving_average values L alpha).length = values.length ∧
    (momentum prices lb).length = prices.length ∧
    (momentum2 popt lb).length = popt.length ∧
    (rolling_std values W).length = values.length ∧
    (rolling_zscore values W).length = values.length ∧
    (zscore values W).length = values.length ∧
    (∀ dec ranks, compute_deciles_with_rank values W = some (dec, ranks) →
      ranks.length = values.length) := by
  refine ⟨by simp [exponentially_weighted_moving_average],
    by simp [momentum], by simp [momentum2], by simp [rolling_std],
    by simp [rolling_zscore], ?_, ?_⟩
  · rw [zscore]
    by_cases hW : W = 0
    · rw [if_pos hW]
      simp
    · rw [if_neg hW]
      simp [rolling_zscore]
  · intro dec ranks h
    by_cases hc : 1 ≤ W ∧ W ≤ values.length
    · rw [compute_deciles_with_rank, if_pos hc, Option.some.injEq, Prod.mk.injEq] at h
      rw [← h.2]
      simp
    · rw [compute_deciles_with_rank, if_neg hc] at h
      cases h

/-- Witness for C10: the decile-rank component at values = [1, 2],
window 2, where the ranker returns ranks [none, some 9]. -/
theorem C10_length_preservation_witness :
    ([none, some 9] : List (Option ℕ)).length = ([1, 2] : List ℚ).length := by
  have hsome : compute_deciles_with_rank [1, 2] 2 =
      some ([[11/10, 12/10, 13/10, 14/10, 15/10, 16/10, 17/10, 18/10, 19/10]],
        [none, some 9]) := by
    have hb : decileBreakpoints [1, 2] =
        [11/10, 12/10, 13/10, 14/10, 15/10, 16/10, 17/10, 18/10, 19/10] := by
      norm_num [decileBreakpoints, npPercentile, interpSorted, sortQ, List.mergeSort,
        List.range_succ]
    have hs : pySlice [(1 : ℚ), 2] 0 2 = [1, 2] := by norm_num [pySlice]
    have hf : find_decile 2 [11/10, 6/5, 13/10, 7/5, 3/2, 8/5, 17/10, 9/5, 19/10] = 9 := by
      norm_num [find_decile, findDecileFrom]
    rw [compute_deciles_with_rank, if_pos (by norm_num)]
    norm_num [List.range_succ, hs, hb, hf, pySlice]
  exact (C10_length_preservation [1, 2] [1, 2] [] 1 1 2 (1/2)).2.2.2.2.2.2
    [[11/10, 12/10, 13/10, 14/10, 15/10, 16/10, 17/10, 18/10, 19/10]]
    [none, some 9] hsome

/-- C2: the windowed-loop forward-return construction and the shift-based
construction (percent-change over h steps shifted back h positions) produce
identical values at every valid (h, t), missing entries included. -/
theorem C2_shift_equivalence (prices : List ℚ) (H h t : ℕ)
    (h1 : 1 ≤ h) (h2 : h ≤ H) (ht : t < prices.length) :
    (shiftBack (pct_change prices h) h).getD t none =
      ((_calc_fwd_returns prices H).getD (h - 1) []).getD t none := by
  rw [calc_fwd_returns_entry prices H h t h1 h2 ht]
  exact fwdReturnsCol_entry prices h t ht

/-- Witness for C2 at prices = [100, 110, 121], H = 2, h = 1, t = 1. -/
theorem C2_shift_equivalence_witness :
    (shiftBack (pct_change [100, 110, 121] 1) 1).getD 1 none =
      ((_calc_fwd_returns [100, 110, 121] 2).getD (1 - 1) []).getD 1 none :=
  C2_shift_equivalence [100, 110, 121] 2 1 1 (by norm_num) (by norm_num) (by norm_num)
